import Mathlib

/-!
Verification of the auction mechanism engine of `mrplan_auctioneer`
(`src/mrplan_auctioneer/auctioneer.py`, `item.py`).

The Python source is shallowly embedded: bid dictionaries become
insertion-ordered association lists, Python floats become rationals,
`sys.maxint` becomes the constant `maxint`, crashing paths
(`KeyError`, `TypeError`, `IndexError`) become `none`/`Option`, and the
stateful phases become explicit state-passing functions.  Python's
`sorted` is a stable sort, which is extensionally unique, so it is
embedded as `List.insertionSort` (stable) on the same key.
-/

namespace MRPlan

/-- Robot (bidder) identifiers, e.g. "robot_1". -/
abbrev RobotId := String

/-- Task/item identifiers. -/
abbrev TaskId := String

/-- A Python tuple of task ids, used as a bid-dictionary key
(`tuple(task_ids)` in `on_bid_received`).  Tuples compare element-wise
and in order, hence a `List`. -/
abbrev TaskSubset := List TaskId

/-- Bid values are Python floats; modelled as rationals. -/
abbrev Cost := ℚ

/-- One robot's bid dictionary for a round: `bids[round][robot_id]`,
keyed by task-subset tuple, in insertion order. -/
abbrev RobotBids := List (TaskSubset × Cost)

/-- The bid ledger entry for one round: `bids[round]`, keyed by robot id,
in insertion order. -/
abbrev RoundBids := List (RobotId × RobotBids)

/-- Python's `float(sys.maxint)`: the 'very large' default used by
`_min_bid_for_round` for a missing bid and as the initial `min_cost`. -/
def maxint : Cost := 9223372036854775807

/-- Python-dict lookup on an association list (keys are unique in a dict,
so first match is the match). -/
def lookupA {α β : Type} [DecidableEq α] : List (α × β) → α → Option β
  | [], _ => none
  | (k, v) :: rest, k2 => if k = k2 then some v else lookupA rest k2

/-- Python-dict assignment `d[k] = v`: overwrite in place, else append. -/
def updateA {α β : Type} [DecidableEq α] : List (α × β) → α → β → List (α × β)
  | [], k, v => [(k, v)]
  | (k2, v2) :: rest, k, v =>
      if k2 = k then (k, v) :: rest else (k2, v2) :: updateA rest k v

/-- A task as the mechanisms access it: `task_id`, required robot count
`num_robots` (the spec's `need`), allocated count `num_robots_allocated`
(the spec's `have`) and the `awarded` flag (from `item.py`, initially
false). -/
structure Task where
  task_id : TaskId
  num_robots : Nat
  num_robots_allocated : Nat
  awarded : Bool
deriving DecidableEq, Repr

/-- The spec's task invariant: `0 <= have <= need` (the lower bound is
implicit in `Nat`) and `awarded ⇔ have == need`. -/
def taskInvariant (t : Task) : Prop :=
  t.num_robots_allocated ≤ t.num_robots ∧
    (t.awarded = true ↔ t.num_robots_allocated = t.num_robots)

instance (t : Task) : Decidable (taskInvariant t) := by
  unfold taskInvariant; infer_instance

/-- The store `self.auctioneer.awarded`: `defaultdict(list)` mapping a task id to
the list of robots already awarded that task. -/
abbrev Awarded := List (TaskId × List RobotId)

/-- Reads `awarded[task_id]` with the `defaultdict(list)` default. -/
def awardedFor (aw : Awarded) (tid : TaskId) : List RobotId :=
  (lookupA aw tid).getD []

/-! ### Set-partition enumeration (`partitionsets.partition.Partition`)

`AuctionSUM.determine_winner` enumerates every set-partition of the
ordered bundle of task ids.  Blocks keep the bundle's element order, so
`tuple(t_list)` matches the tuple keys under which bidders bid. -/

/-- All ways to add `x` to an existing partition: into each block in
turn, or as a fresh singleton block. -/
def addToPartition (x : TaskId) : List TaskSubset → List (List TaskSubset)
  | [] => [[[x]]]
  | b :: bs =>
      ((x :: b) :: bs) :: (addToPartition x bs).map (fun p => b :: p)

/-- Every set-partition of a list of (distinct) task ids.  Each block
lists its ids in bundle order. -/
def allPartitions : List TaskId → List (List TaskSubset)
  | [] => [[]]
  | x :: rest => (allPartitions rest).flatMap (addToPartition x)

/-! ### `AuctionSUM._min_bid_for_round` / `AuctionMAX._min_bid_for_round`

Textually identical in the two classes.  `robot_cost` is a
`defaultdict(float)`; it is read for *every* robot in the round's bid
dict, so it is modelled as a total function with default 0. -/

/-- Per-robot candidate value: the robot's bid for the subset (or
`maxint` when missing, as in `bids[robot_id].get(tasks, float(sys.maxint))`)
plus the robot's accumulated cost. -/
def candidateBid (tasks : TaskSubset) (robotCost : RobotId → Cost)
    (r : RobotId) (bs : RobotBids) : Cost :=
  ((lookupA bs tasks).getD maxint) + robotCost r

/-- The fold at the heart of `_min_bid_for_round`: strict-improvement
minimum over the round's robots, first robot winning ties. -/
def minBidFold (tasks : TaskSubset) (robotCost : RobotId → Cost)
    (acc : Option (Cost × RobotId)) : RoundBids → Option (Cost × RobotId)
  | [] => acc
  | (r, bs) :: rest =>
      let cand := candidateBid tasks robotCost r bs
      match acc with
      | none => minBidFold tasks robotCost (some (cand, r)) rest
      | some (m, mr) =>
          if cand < m then minBidFold tasks robotCost (some (cand, r)) rest
          else minBidFold tasks robotCost (some (m, mr)) rest

/-- The method `_min_bid_for_round(tasks, round, robot_cost)` (shared by
`AuctionSUM` and `AuctionMAX`): returns `(min_bid, min_robot_id)`, or
`none` when the round has no bidders (in which case the Python caller
crashes on `robot_cost[None] += None`). -/
def min_bid_for_round (bids : RoundBids) (tasks : TaskSubset)
    (robotCost : RobotId → Cost) : Option (Cost × RobotId) :=
  minBidFold tasks robotCost none bids

/-- One block assignment as stored in `mincost_dict[t_tuple] = [min_bid,
min_robot_id]` (in insertion order). -/
abbrev Assignment := List (TaskSubset × Cost × RobotId)

/-- Performs `robot_cost[min_robot_id] += min_bid`. -/
def bumpCost (rc : RobotId → Cost) (r : RobotId) (c : Cost) : RobotId → Cost :=
  fun r2 => if r2 = r then rc r2 + c else rc r2

/-- The inner `for t_list in t_partition` loop of
`AuctionSUM.determine_winner` / `AuctionMAX.determine_winner`: greedily
assign each block of the partition, accumulating `robot_cost`.  `none`
models the crash that occurs when the round has no bidders. -/
def assignPartition (bids : RoundBids) :
    List TaskSubset → (RobotId → Cost) → Option (Assignment × (RobotId → Cost))
  | [], robotCost => some ([], robotCost)
  | tl :: rest, robotCost =>
      match min_bid_for_round bids tl robotCost with
      | none => none
      | some (mb, mr) =>
          match assignPartition bids rest (bumpCost robotCost mr mb) with
          | none => none
          | some (asgn, rc) => some ((tl, mb, mr) :: asgn, rc)

/-- Computes `partition_cost = sum(v[0] for v in mincost_dict.values())` (SUM). -/
def sumPartitionCost (asgn : Assignment) : Cost :=
  (asgn.map (fun e => e.2.1)).sum

/-- Takes the `max` of a nonempty list of costs (`max(robot_cost.values())`);
`none` on the empty list (where Python's `max([])` raises). -/
def listMax : List Cost → Option Cost
  | [] => none
  | c :: rest =>
      match listMax rest with
      | none => some c
      | some m => some (max c m)

/-- Computes `partition_cost = max(robot_cost.values())` (MAX).  After at least
one block has been processed, `robot_cost` holds an entry for every
robot of the round's bid dict (reading a `defaultdict` inserts the
default), so the values iterated are exactly the accumulated costs of
the round's robots. -/
def maxPartitionCost (bids : RoundBids) (robotCost : RobotId → Cost) :
    Option Cost :=
  listMax (bids.map (fun rb => robotCost rb.1))

/-- The selection fold shared by both combinatorial mechanisms:
`if not min_cost_partition or partition_cost < min_cost`, i.e. take the
first candidate, then strict improvement only. -/
def selectMin {α : Type} : Option (α × Cost) → List (α × Cost) → Option (α × Cost)
  | acc, [] => acc
  | none, c :: rest => selectMin (some c) rest
  | some (b, m), (a, c) :: rest =>
      if c < m then selectMin (some (a, c)) rest
      else selectMin (some (b, m)) rest

namespace AuctionSUM

/-- The per-partition candidates built by `AuctionSUM.determine_winner`'s
outer `for t_partition in t_partitions` loop: the greedy assignment
(`mincost_dict`) of each enumerated partition, paired with its
`partition_cost` (sum of the stored values). -/
def costedCandidates (taskIds : List TaskId) (bids : RoundBids) :
    List (Assignment × Cost) :=
  (allPartitions taskIds).filterMap fun p =>
    (assignPartition bids p (fun _ => 0)).map fun ar =>
      (ar.1, sumPartitionCost ar.1)

/-- The method `AuctionSUM.determine_winner`: enumerate all partitions of the
bundle's task ids, greedily assign each, and keep the partition with the
minimum total cost.  The result is the winning `min_cost_partition`
(`none` models the no-bidders crash and the empty-candidate case). -/
def determine_winner (taskIds : List TaskId) (bids : RoundBids) :
    Option Assignment :=
  (selectMin none (costedCandidates taskIds bids)).map (fun ac => ac.1)

end AuctionSUM

namespace AuctionMAX

/-- The per-partition candidates built by `AuctionMAX.determine_winner`:
same greedy assignment as SUM, but each partition is costed by
`max(robot_cost.values())`. -/
def costedCandidates (taskIds : List TaskId) (bids : RoundBids) :
    List (Assignment × Cost) :=
  (allPartitions taskIds).filterMap fun p =>
    (assignPartition bids p (fun _ => 0)).bind fun ar =>
      (maxPartitionCost bids ar.2).map fun c => (ar.1, c)

/-- The method `AuctionMAX.determine_winner`: identical enumeration and greedy
assignment to SUM (the source duplicates `_min_bid_for_round`
verbatim), but the cost compared across partitions is
`max(robot_cost.values())`. -/
def determine_winner (taskIds : List TaskId) (bids : RoundBids) :
    Option Assignment :=
  (selectMin none (costedCandidates taskIds bids)).map (fun ac => ac.1)

end AuctionMAX

/-! ### Lemmas about the partition enumeration -/

/-- Adding an element never yields an empty candidate list. -/
theorem addToPartition_ne_nil (x : TaskId) (q : List TaskSubset) :
    addToPartition x q ≠ [] := by
  cases q <;> simp [addToPartition]

/-- The enumeration is never empty. -/
theorem allPartitions_ne_nil (l : List TaskId) : allPartitions l ≠ [] := by
  induction l with
  | nil => simp [allPartitions]
  | cons x rest ih =>
      simp only [allPartitions, ne_eq, List.flatMap_eq_nil_iff]
      intro h
      rcases List.exists_mem_of_ne_nil _ ih with ⟨q, hq⟩
      exact addToPartition_ne_nil x q (h q hq)

/-- Shape of `addToPartition`: each candidate is the original partition
with `x` added at the front of one block, or with `[x]` appended. -/
theorem mem_addToPartition {x : TaskId} {q p : List TaskSubset}
    (h : p ∈ addToPartition x q) :
    (∃ q1 b q2, q = q1 ++ b :: q2 ∧ p = q1 ++ (x :: b) :: q2) ∨ p = q ++ [[x]] := by
  induction q generalizing p with
  | nil => simp only [addToPartition, List.mem_singleton] at h; right; simp [h]
  | cons b bs ih =>
      simp only [addToPartition, List.mem_cons, List.mem_map] at h
      rcases h with h | ⟨p2, hp2, rfl⟩
      · exact Or.inl ⟨[], b, bs, rfl, by simp [h]⟩
      · rcases ih hp2 with ⟨q1, b2, q2, hq, hp⟩ | hp
        · exact Or.inl ⟨b :: q1, b2, q2, by simp [hq], by simp [hp]⟩
        · right; simp [hp]

/-- Adding `x` to the front of any one block is among the candidates. -/
theorem addToPartition_mem_replace (x : TaskId) :
    ∀ (q1 : List TaskSubset) (b : TaskSubset) (q2 : List TaskSubset),
      (q1 ++ (x :: b) :: q2) ∈ addToPartition x (q1 ++ b :: q2)
  | [], b, q2 => by simp [addToPartition]
  | c :: q1, b, q2 => by
      simp only [List.cons_append, addToPartition, List.mem_cons, List.mem_map]
      exact Or.inr ⟨_, addToPartition_mem_replace x q1 b q2, rfl⟩

/-- Appending the fresh singleton block is among the candidates. -/
theorem addToPartition_mem_new (x : TaskId) :
    ∀ q : List TaskSubset, (q ++ [[x]]) ∈ addToPartition x q
  | [] => by simp [addToPartition]
  | b :: bs => by
      simp only [List.cons_append, addToPartition, List.mem_cons, List.mem_map]
      exact Or.inr ⟨_, addToPartition_mem_new x bs, rfl⟩

/-- Soundness of the enumeration: every enumerated candidate is a
set-partition of the bundle — nonempty blocks whose concatenation is a
permutation of the bundle. -/
theorem allPartitions_sound {l : List TaskId} {p : List TaskSubset}
    (h : p ∈ allPartitions l) :
    List.Perm p.flatten l ∧ ∀ b ∈ p, b ≠ [] := by
  induction l generalizing p with
  | nil =>
      simp only [allPartitions, List.mem_singleton] at h
      subst h; exact ⟨List.Perm.refl _, by simp⟩
  | cons x rest ih =>
      simp only [allPartitions, List.mem_flatMap] at h
      rcases h with ⟨q, hq, hpq⟩
      rcases ih hq with ⟨hperm, hne⟩
      rcases mem_addToPartition hpq with ⟨q1, b, q2, rfl, rfl⟩ | rfl
      · refine ⟨?_, ?_⟩
        · have h1 : (q1 ++ (x :: b) :: q2).flatten =
              q1.flatten ++ x :: (b ++ q2.flatten) := by
            simp [List.flatten_append]
          have h2 : (q1 ++ b :: q2).flatten =
              q1.flatten ++ (b ++ q2.flatten) := by
            simp [List.flatten_append]
          rw [h1]
          exact List.perm_middle.trans (by rw [← h2]; exact hperm.cons x)
        · intro b2 hb2
          rcases List.mem_append.mp hb2 with h2 | h2
          · exact hne _ (List.mem_append.mpr (Or.inl h2))
          · rcases List.mem_cons.mp h2 with rfl | h3
            · simp
            · exact hne _ (List.mem_append.mpr (Or.inr (List.mem_cons_of_mem _ h3)))
      · refine ⟨?_, ?_⟩
        · have h1 : (q ++ [[x]]).flatten = q.flatten ++ [x] := by
            simp [List.flatten_append]
          rw [h1]
          exact (List.perm_append_singleton x q.flatten).trans (hperm.cons x)
        · intro b2 hb2
          rcases List.mem_append.mp hb2 with h2 | h2
          · exact hne _ h2
          · simp only [List.mem_singleton] at h2; simp [h2]

/-- The block multiset of a partition: forgets the order of the blocks
and the order of ids inside each block. -/
def blockMS (p : List TaskSubset) : Multiset (Multiset TaskId) :=
  Multiset.ofList (p.map Multiset.ofList)

theorem blockMS_middle (P1 : List TaskSubset) (b : TaskSubset) (P2 : List TaskSubset) :
    blockMS (P1 ++ b :: P2) = Multiset.ofList b ::ₘ blockMS (P1 ++ P2) := by
  simp only [blockMS, List.map_append, List.map_cons, Multiset.cons_coe]
  exact Multiset.coe_eq_coe.mpr List.perm_middle

/-- Completeness of the enumeration: every family of nonempty blocks
covering the bundle up to order occurs in `allPartitions`, up to block
order and order inside blocks. -/
theorem allPartitions_complete :
    ∀ (l : List TaskId) (P : List (List TaskId)),
      (∀ b ∈ P, b ≠ []) → List.Perm P.flatten l →
      ∃ p ∈ allPartitions l, blockMS p = blockMS P := by
  intro l
  induction l with
  | nil =>
      intro P hne hperm
      have hflat : P.flatten = [] := List.Perm.eq_nil hperm
      have hP : P = [] := by
        cases P with
        | nil => rfl
        | cons b bs =>
            exfalso
            simp only [List.flatten_cons, List.append_eq_nil] at hflat
            exact hne b (List.mem_cons_self b bs) hflat.1
      subst hP
      exact ⟨[], by simp [allPartitions], rfl⟩
  | cons x rest ih =>
      intro P hne hperm
      have hx : x ∈ P.flatten := hperm.mem_iff.mpr (List.mem_cons_self x rest)
      rcases List.mem_flatten.mp hx with ⟨b, hbP, hxb⟩
      rcases List.append_of_mem hbP with ⟨P1, P2, rfl⟩
      rcases List.append_of_mem hxb with ⟨b1, b2, rfl⟩
      have hmid : List.Perm (P1 ++ (b1 ++ x :: b2) :: P2).flatten
          (x :: (P1.flatten ++ (b1 ++ b2 ++ P2.flatten))) := by
        have h1 : (P1 ++ (b1 ++ x :: b2) :: P2).flatten =
            P1.flatten ++ ((b1 ++ x :: b2) ++ P2.flatten) := by
          simp [List.flatten_append]
        rw [h1]
        have h2 : List.Perm ((b1 ++ x :: b2) ++ P2.flatten)
            (x :: (b1 ++ b2 ++ P2.flatten)) := by
          have h5 := @List.perm_middle _ x b1 b2
          exact h5.append_right P2.flatten
        exact ((h2.append_left P1.flatten).trans List.perm_middle)
      have hrest : List.Perm (P1.flatten ++ (b1 ++ b2 ++ P2.flatten)) rest :=
        ((hmid.symm.trans hperm)).cons_inv
      by_cases hbb : b1 ++ b2 = []
      · -- x's block was the singleton [x]: recurse on P1 ++ P2
        have hb1 : b1 = [] := (List.append_eq_nil.mp hbb).1
        have hb2 : b2 = [] := (List.append_eq_nil.mp hbb).2
        subst hb1; subst hb2
        have hperm2 : List.Perm (P1 ++ P2).flatten rest := by
          have h3 : (P1 ++ P2).flatten = P1.flatten ++ P2.flatten := by
            simp [List.flatten_append]
          rw [h3]
          simp only [List.nil_append] at hrest
          exact hrest
        rcases ih (P1 ++ P2)
            (fun c hc => hne c (by
              rcases List.mem_append.mp hc with h | h
              · exact List.mem_append.mpr (Or.inl h)
              · exact List.mem_append.mpr (Or.inr (List.mem_cons_of_mem _ h))))
            hperm2 with ⟨q, hq, hms⟩
        refine ⟨q ++ [[x]], ?_, ?_⟩
        · simp only [allPartitions, List.mem_flatMap]
          exact ⟨q, hq, addToPartition_mem_new x q⟩
        · have h1 : blockMS (q ++ [[x]]) = Multiset.ofList [x] ::ₘ blockMS q := by
            simpa using blockMS_middle q [x] []
          have h2 : blockMS (P1 ++ ([x] : TaskSubset) :: P2) =
              Multiset.ofList [x] ::ₘ blockMS (P1 ++ P2) := by
            simpa using blockMS_middle P1 [x] P2
          simp only [List.nil_append]
          rw [h1, h2, hms]
      · -- x's block had other ids: recurse on P1 ++ (b1 ++ b2) :: P2
        have hperm2 : List.Perm (P1 ++ (b1 ++ b2) :: P2).flatten rest := by
          have h3 : (P1 ++ (b1 ++ b2) :: P2).flatten =
              P1.flatten ++ (b1 ++ b2 ++ P2.flatten) := by
            simp [List.flatten_append]
          rw [h3]; exact hrest
        rcases ih (P1 ++ (b1 ++ b2) :: P2)
            (fun c hc => by
              rcases List.mem_append.mp hc with h | h
              · exact hne c (List.mem_append.mpr (Or.inl h))
              · rcases List.mem_cons.mp h with rfl | h3
                · exact hbb
                · exact hne c (List.mem_append.mpr (Or.inr (List.mem_cons_of_mem _ h3))))
            hperm2 with ⟨q, hq, hms⟩
        have hmem : Multiset.ofList (b1 ++ b2) ∈ blockMS q := by
          rw [hms, blockMS_middle]
          exact Multiset.mem_cons_self _ _
        have hmem2 : ∃ b3 ∈ q, Multiset.ofList b3 = Multiset.ofList (b1 ++ b2) := by
          simpa only [blockMS, Multiset.mem_coe, List.mem_map] using hmem
        rcases hmem2 with ⟨b3, hb3q, hb3⟩
        rcases List.append_of_mem hb3q with ⟨q1, q2, rfl⟩
        refine ⟨q1 ++ (x :: b3) :: q2, ?_, ?_⟩
        · simp only [allPartitions, List.mem_flatMap]
          exact ⟨q1 ++ b3 :: q2, hq, addToPartition_mem_replace x q1 b3 q2⟩
        · rw [blockMS_middle, blockMS_middle]
          have hhead : Multiset.ofList (x :: b3) =
              Multiset.ofList (b1 ++ x :: b2) := by
            have h4 : List.Perm (b1 ++ x :: b2) (x :: b3) := by
              refine List.perm_middle.trans ?_
              exact (Multiset.coe_eq_coe.mp hb3.symm).cons x
            exact (Multiset.coe_eq_coe.mpr h4).symm
          rw [hhead]
          congr 1
          have h5 := hms
          rw [blockMS_middle, blockMS_middle, hb3] at h5
          exact (Multiset.cons_inj_right _).mp h5

/-! ### Lemmas about the greedy minimum-bid search -/

theorem minBidFold_acc_spec (tasks : TaskSubset) (rc : RobotId → Cost) :
    ∀ (l : RoundBids) (m : Cost) (mr : RobotId),
      ∃ c r, minBidFold tasks rc (some (m, mr)) l = some (c, r) ∧ c ≤ m ∧
        ((c = m ∧ r = mr) ∨ ∃ bs, (r, bs) ∈ l ∧ c = candidateBid tasks rc r bs) ∧
        ∀ p ∈ l, c ≤ candidateBid tasks rc p.1 p.2 := by
  intro l
  induction l with
  | nil =>
      intro m mr
      exact ⟨m, mr, rfl, le_refl m, Or.inl ⟨rfl, rfl⟩, by simp⟩
  | cons hd rest ih =>
      intro m mr
      obtain ⟨r0, bs0⟩ := hd
      by_cases hlt : candidateBid tasks rc r0 bs0 < m
      · rcases ih (candidateBid tasks rc r0 bs0) r0 with ⟨c, r, heq, hcm, horig, hall⟩
        refine ⟨c, r, ?_, le_of_lt (lt_of_le_of_lt hcm hlt), ?_, ?_⟩
        · simpa [minBidFold, hlt] using heq
        · rcases horig with ⟨rfl, rfl⟩ | ⟨bs, hbs, hc⟩
          · exact Or.inr ⟨bs0, List.mem_cons_self _ _, rfl⟩
          · exact Or.inr ⟨bs, List.mem_cons_of_mem _ hbs, hc⟩
        · intro p hp
          rcases List.mem_cons.mp hp with rfl | hp2
          · exact hcm
          · exact hall p hp2
      · rcases ih m mr with ⟨c, r, heq, hcm, horig, hall⟩
        refine ⟨c, r, ?_, hcm, ?_, ?_⟩
        · simpa [minBidFold, hlt] using heq
        · rcases horig with h | ⟨bs, hbs, hc⟩
          · exact Or.inl h
          · exact Or.inr ⟨bs, List.mem_cons_of_mem _ hbs, hc⟩
        · intro p hp
          rcases List.mem_cons.mp hp with rfl | hp2
          · exact le_trans hcm (not_lt.mp hlt)
          · exact hall p hp2

/-- With at least one bidder, `_min_bid_for_round` returns a robot of
the round together with its candidate value, which is minimal among all
robots' (bid or `maxint`) + accumulated-cost values. -/
theorem min_bid_for_round_spec (bids : RoundBids) (tasks : TaskSubset)
    (rc : RobotId → Cost) (h : bids ≠ []) :
    ∃ c r, min_bid_for_round bids tasks rc = some (c, r) ∧
      (∃ bs, (r, bs) ∈ bids ∧ c = candidateBid tasks rc r bs) ∧
      ∀ p ∈ bids, c ≤ candidateBid tasks rc p.1 p.2 := by
  cases bids with
  | nil => exact absurd rfl h
  | cons hd rest =>
      obtain ⟨r0, bs0⟩ := hd
      rcases minBidFold_acc_spec tasks rc rest (candidateBid tasks rc r0 bs0) r0 with
        ⟨c, r, heq, hcm, horig, hall⟩
      refine ⟨c, r, ?_, ?_, ?_⟩
      · simpa [min_bid_for_round, minBidFold] using heq
      · rcases horig with ⟨rfl, rfl⟩ | ⟨bs, hbs, hc⟩
        · exact ⟨bs0, List.mem_cons_self _ _, rfl⟩
        · exact ⟨bs, List.mem_cons_of_mem _ hbs, hc⟩
      · intro p hp
        rcases List.mem_cons.mp hp with rfl | hp2
        · exact hcm
        · exact hall p hp2

/-- The spec's description of the per-partition greedy assignment,
stated in its own words: each block in turn goes to a bidder attaining
the lowest (block bid + that bidder's running cost), and the winner's
running cost is bumped. -/
inductive GreedySpec (bids : RoundBids) :
    List TaskSubset → (RobotId → Cost) → Assignment → Prop where
  | nil (rc : RobotId → Cost) : GreedySpec bids [] rc []
  | cons (tl : TaskSubset) (rest : List TaskSubset) (rc : RobotId → Cost)
      (c : Cost) (r : RobotId) (bs : RobotBids) (asgn : Assignment)
      (hmem : (r, bs) ∈ bids)
      (hval : c = candidateBid tl rc r bs)
      (hmin : ∀ p ∈ bids, c ≤ candidateBid tl rc p.1 p.2)
      (htail : GreedySpec bids rest (bumpCost rc r c) asgn) :
      GreedySpec bids (tl :: rest) rc ((tl, c, r) :: asgn)

/-- With at least one bidder, the translated inner loop terminates
normally, realizes the spec's greedy description, and covers exactly the
partition's blocks in order. -/
theorem assignPartition_spec (bids : RoundBids) (h : bids ≠ []) :
    ∀ (p : List TaskSubset) (rc : RobotId → Cost),
      ∃ asgn rc2, assignPartition bids p rc = some (asgn, rc2) ∧
        GreedySpec bids p rc asgn ∧ asgn.map (fun e => e.1) = p := by
  intro p
  induction p with
  | nil => intro rc; exact ⟨[], rc, rfl, GreedySpec.nil rc, rfl⟩
  | cons tl rest ih =>
      intro rc
      rcases min_bid_for_round_spec bids tl rc h with ⟨c, r, heq, ⟨bs, hbs, hval⟩, hmin⟩
      rcases ih (bumpCost rc r c) with ⟨asgn, rc2, heq2, hgreedy, hcover⟩
      refine ⟨(tl, c, r) :: asgn, rc2, ?_, ?_, ?_⟩
      · simp [assignPartition, heq, heq2]
      · exact GreedySpec.cons tl rest rc c r bs asgn hbs hval hmin hgreedy
      · simp [hcover]

/-! ### Lemmas about the partition-selection fold -/

theorem selectMin_acc_spec {α : Type} :
    ∀ (l : List (α × Cost)) (b : α) (m : Cost),
      ∃ a c, selectMin (some (b, m)) l = some (a, c) ∧ c ≤ m ∧
        ((a, c) = (b, m) ∨ (a, c) ∈ l) ∧ ∀ p ∈ l, c ≤ p.2 := by
  intro l
  induction l with
  | nil =>
      intro b m
      exact ⟨b, m, rfl, le_refl m, Or.inl rfl, by simp⟩
  | cons hd rest ih =>
      intro b m
      obtain ⟨a0, c0⟩ := hd
      by_cases hlt : c0 < m
      · rcases ih a0 c0 with ⟨a, c, heq, hcm, horig, hall⟩
        refine ⟨a, c, ?_, le_of_lt (lt_of_le_of_lt hcm hlt), ?_, ?_⟩
        · simpa [selectMin, hlt] using heq
        · rcases horig with h | h
          · exact Or.inr (List.mem_cons.mpr (Or.inl h))
          · exact Or.inr (List.mem_cons_of_mem _ h)
        · intro p hp
          rcases List.mem_cons.mp hp with rfl | hp2
          · exact hcm
          · exact hall p hp2
      · rcases ih b m with ⟨a, c, heq, hcm, horig, hall⟩
        refine ⟨a, c, ?_, hcm, ?_, ?_⟩
        · simpa [selectMin, hlt] using heq
        · rcases horig with h | h
          · exact Or.inl h
          · exact Or.inr (List.mem_cons_of_mem _ h)
        · intro p hp
          rcases List.mem_cons.mp hp with rfl | hp2
          · exact le_trans hcm (not_lt.mp hlt)
          · exact hall p hp2

/-- On a nonempty candidate list the selection fold returns a candidate
of the list whose cost is minimal. -/
theorem selectMin_none_spec {α : Type} (l : List (α × Cost)) (h : l ≠ []) :
    ∃ a c, selectMin none l = some (a, c) ∧ (a, c) ∈ l ∧ ∀ p ∈ l, c ≤ p.2 := by
  cases l with
  | nil => exact absurd rfl h
  | cons hd rest =>
      obtain ⟨a0, c0⟩ := hd
      rcases selectMin_acc_spec rest a0 c0 with ⟨a, c, heq, hcm, horig, hall⟩
      refine ⟨a, c, heq, ?_, ?_⟩
      · rcases horig with h2 | h2
        · exact h2 ▸ List.mem_cons_self _ _
        · exact List.mem_cons_of_mem _ h2
      · intro p hp
        rcases List.mem_cons.mp hp with rfl | hp2
        · exact hcm
        · exact hall p hp2

theorem listMax_spec : ∀ (l : List Cost), l ≠ [] →
    ∃ m, listMax l = some m ∧ m ∈ l ∧ ∀ x ∈ l, x ≤ m := by
  intro l
  induction l with
  | nil => intro h; exact absurd rfl h
  | cons c rest ih =>
      intro _
      by_cases hr : rest = []
      · subst hr
        exact ⟨c, rfl, by simp, by simp⟩
      · rcases ih hr with ⟨m, hm, hmem, hall⟩
        refine ⟨max c m, ?_, ?_, ?_⟩
        · simp only [listMax]
          rw [hm]
        · rcases le_total c m with h | h
          · simp only [max_eq_right h]
            exact List.mem_cons_of_mem _ hmem
          · simp [max_eq_left h]
        · intro x hx
          rcases List.mem_cons.mp hx with rfl | hx2
          · exact le_max_left _ _
          · exact le_trans (hall x hx2) (le_max_right _ _)

/-- C2: `AuctionSUM.determine_winner` enumerates every set-partition of
the bundle (soundly and completely, up to block/element order), greedily
assigns each block of each partition to a bidder minimising (subset bid
+ that bidder's running cost), costs a partition by the sum of the
stored block costs, and returns a partition assignment of minimum total
cost. -/
theorem sum_partition_winner_spec (taskIds : List TaskId) (bids : RoundBids)
    (hb : bids ≠ []) :
    ∃ asgn, AuctionSUM.determine_winner taskIds bids = some asgn ∧
      (asgn.map (fun e => e.1)) ∈ allPartitions taskIds ∧
      List.Perm (asgn.map (fun e => e.1)).flatten taskIds ∧
      GreedySpec bids (asgn.map (fun e => e.1)) (fun _ => 0) asgn ∧
      (∀ P : List (List TaskId), (∀ b ∈ P, b ≠ []) → List.Perm P.flatten taskIds →
          ∃ p ∈ allPartitions taskIds, blockMS p = blockMS P) ∧
      (∀ p ∈ allPartitions taskIds, ∀ asgn2 rc2,
          assignPartition bids p (fun _ => 0) = some (asgn2, rc2) →
          sumPartitionCost asgn ≤ sumPartitionCost asgn2) := by
  rcases List.exists_mem_of_ne_nil _ (allPartitions_ne_nil taskIds) with ⟨p0, hp0⟩
  rcases assignPartition_spec bids hb p0 (fun _ => 0) with ⟨a0, rc0, ha0, _, _⟩
  have hmem0 : (a0, sumPartitionCost a0) ∈ AuctionSUM.costedCandidates taskIds bids :=
    List.mem_filterMap.mpr ⟨p0, hp0, by rw [ha0]; rfl⟩
  rcases selectMin_none_spec _ (List.ne_nil_of_mem hmem0) with ⟨asgn, c, hsel, hmem, hall⟩
  rcases List.mem_filterMap.mp hmem with ⟨p, hp, hfp⟩
  rcases assignPartition_spec bids hb p (fun _ => 0) with ⟨a1, rc1, ha1, hg1, hcov1⟩
  rw [ha1] at hfp
  have hpair : (a1, sumPartitionCost a1) = (asgn, c) := Option.some.inj hfp
  obtain ⟨rfl, rfl⟩ := Prod.mk.inj hpair.symm
  refine ⟨asgn, ?_, ?_, ?_, ?_, ?_, ?_⟩
  · simp [AuctionSUM.determine_winner, hsel]
  · rw [hcov1]; exact hp
  · rw [hcov1]; exact (allPartitions_sound hp).1
  · rw [hcov1]; exact hg1
  · exact allPartitions_complete taskIds
  · intro p2 hp2 asgn2 rc2 hassign
    exact hall (asgn2, sumPartitionCost asgn2)
      (List.mem_filterMap.mpr ⟨p2, hp2, by rw [hassign]; rfl⟩)

/-- The bundle of the spec's concrete SUM test: tasks A and B. -/
def specBundle : List TaskId := ["A", "B"]

/-- The bids of the spec's concrete SUM test: r1 bids {A}=5, {B}=5,
{A,B}=8; r2 bids {A}=9, {B}=2, {A,B}=20. -/
def specBids : RoundBids :=
  [("r1", [(["A"], 5), (["B"], 5), (["A", "B"], 8)]),
   ("r2", [(["A"], 9), (["B"], 2), (["A", "B"], 20)])]

/-- Witness for `sum_partition_winner_spec` at the spec's concrete
instance. -/
theorem sum_partition_winner_spec_witness :
    ∃ asgn, AuctionSUM.determine_winner specBundle specBids = some asgn ∧
      (asgn.map (fun e => e.1)) ∈ allPartitions specBundle ∧
      List.Perm (asgn.map (fun e => e.1)).flatten specBundle ∧
      GreedySpec specBids (asgn.map (fun e => e.1)) (fun _ => 0) asgn ∧
      (∀ P : List (List TaskId), (∀ b ∈ P, b ≠ []) → List.Perm P.flatten specBundle →
          ∃ p ∈ allPartitions specBundle, blockMS p = blockMS P) ∧
      (∀ p ∈ allPartitions specBundle, ∀ asgn2 rc2,
          assignPartition specBids p (fun _ => 0) = some (asgn2, rc2) →
          sumPartitionCost asgn ≤ sumPartitionCost asgn2) :=
  sum_partition_winner_spec specBundle specBids (by decide)

/-- C3: on the concrete 2-task instance the engine enumerates exactly
the two partitions of {A,B}, selects the split partition with A→r1 at
cost 5 and B→r2 at cost 2 (the winning `mincost_dict` lists the blocks
in the enumerated order {B}, {A}), whose total cost 7 beats the
single-bundle partition's cost 8. -/
theorem sum_concrete_instance :
    allPartitions specBundle = [[["A", "B"]], [["B"], ["A"]]] ∧
    AuctionSUM.determine_winner specBundle specBids =
      some [(["B"], 2, "r2"), (["A"], 5, "r1")] ∧
    sumPartitionCost [(["B"], (2 : Cost), "r2"), (["A"], 5, "r1")] = 7 ∧
    (assignPartition specBids [["A", "B"]] (fun _ => 0)).map
        (fun ar => (ar.1, sumPartitionCost ar.1)) =
      some ([(["A", "B"], 8, "r1")], 8) ∧
    (7 : Cost) < 8 := by
  refine ⟨by norm_num [allPartitions, addToPartition, specBundle], ?_, ?_, ?_, by norm_num⟩
  · norm_num +decide [AuctionSUM.determine_winner, AuctionSUM.costedCandidates,
      allPartitions, addToPartition, assignPartition, min_bid_for_round,
      minBidFold, candidateBid, bumpCost, lookupA, sumPartitionCost, selectMin,
      maxint, specBundle, specBids, List.filterMap_cons]
  · norm_num [sumPartitionCost]
  · norm_num +decide [assignPartition, min_bid_for_round, minBidFold,
      candidateBid, bumpCost, lookupA, sumPartitionCost, maxint, specBids]

/-- C4: `AuctionMAX.determine_winner` performs the same enumeration
(`allPartitions`) and greedy per-block assignment (`assignPartition`,
realizing `GreedySpec`) as SUM, but the objective compared across
partitions is the maximum accumulated cost over the round's bidders,
not the sum of block costs. -/
theorem max_partition_winner_spec (taskIds : List TaskId) (bids : RoundBids)
    (hb : bids ≠ []) (_ht : taskIds ≠ []) :
    ∃ asgn rc2 c, AuctionMAX.determine_winner taskIds bids = some asgn ∧
      (asgn.map (fun e => e.1)) ∈ allPartitions taskIds ∧
      GreedySpec bids (asgn.map (fun e => e.1)) (fun _ => 0) asgn ∧
      assignPartition bids (asgn.map (fun e => e.1)) (fun _ => 0) = some (asgn, rc2) ∧
      maxPartitionCost bids rc2 = some c ∧
      (∃ p ∈ bids, c = rc2 p.1) ∧ (∀ p ∈ bids, rc2 p.1 ≤ c) ∧
      (∀ p ∈ allPartitions taskIds, ∀ asgn2 rc3,
          assignPartition bids p (fun _ => 0) = some (asgn2, rc3) →
          ∀ c2, maxPartitionCost bids rc3 = some c2 → c ≤ c2) := by
  have hmapne : bids.map (fun rb => rb.1) ≠ [] := by
    intro h; exact hb (List.map_eq_nil_iff.mp h)
  rcases List.exists_mem_of_ne_nil _ (allPartitions_ne_nil taskIds) with ⟨p0, hp0⟩
  rcases assignPartition_spec bids hb p0 (fun _ => 0) with ⟨a0, rc0, ha0, _, _⟩
  rcases listMax_spec (bids.map (fun rb => rc0 rb.1)) (by simpa using hb) with ⟨c0, hc0, _, _⟩
  have hmem0 : (a0, c0) ∈ AuctionMAX.costedCandidates taskIds bids :=
    List.mem_filterMap.mpr ⟨p0, hp0, by
      rw [ha0]
      show (maxPartitionCost bids rc0).map (fun c => (a0, c)) = some (a0, c0)
      rw [maxPartitionCost, hc0]
      rfl⟩
  rcases selectMin_none_spec _ (List.ne_nil_of_mem hmem0) with ⟨asgn, c, hsel, hmem, hall⟩
  rcases List.mem_filterMap.mp hmem with ⟨p, hp, hfp⟩
  rcases assignPartition_spec bids hb p (fun _ => 0) with ⟨a1, rc1, ha1, hg1, hcov1⟩
  rw [ha1] at hfp
  rcases listMax_spec (bids.map (fun rb => rc1 rb.1)) (by simpa using hb) with
    ⟨c1, hc1, hc1mem, hc1all⟩
  have hfp2 : some (a1, c1) = some (asgn, c) := by
    rw [← hfp]
    show some (a1, c1) = (maxPartitionCost bids rc1).map (fun c => (a1, c))
    rw [maxPartitionCost, hc1]
    rfl
  obtain ⟨rfl, rfl⟩ := Prod.mk.inj (Option.some.inj hfp2)
  refine ⟨a1, rc1, c1, ?_, ?_, ?_, ?_, ?_, ?_, ?_, ?_⟩
  · simp [AuctionMAX.determine_winner, hsel]
  · rw [hcov1]; exact hp
  · rw [hcov1]; exact hg1
  · rw [hcov1]; exact ha1
  · rw [maxPartitionCost, hc1]
  · rcases List.mem_map.mp hc1mem with ⟨rb, hrb, hval⟩
    exact ⟨rb, hrb, hval.symm⟩
  · intro rb hrb
    exact hc1all _ (List.mem_map.mpr ⟨rb, hrb, rfl⟩)
  · intro p2 hp2 asgn2 rc3 hassign c2 hc2
    refine hall (asgn2, c2) (List.mem_filterMap.mpr ⟨p2, hp2, ?_⟩)
    rw [hassign]
    show (maxPartitionCost bids rc3).map (fun c => (asgn2, c)) = some (asgn2, c2)
    rw [hc2]
    rfl

/-- Witness for `max_partition_winner_spec` at the spec's concrete
instance. -/
theorem max_partition_winner_spec_witness :
    ∃ asgn rc2 c, AuctionMAX.determine_winner specBundle specBids = some asgn ∧
      (asgn.map (fun e => e.1)) ∈ allPartitions specBundle ∧
      GreedySpec specBids (asgn.map (fun e => e.1)) (fun _ => 0) asgn ∧
      assignPartition specBids (asgn.map (fun e => e.1)) (fun _ => 0) = some (asgn, rc2) ∧
      maxPartitionCost specBids rc2 = some c ∧
      (∃ p ∈ specBids, c = rc2 p.1) ∧ (∀ p ∈ specBids, rc2 p.1 ≤ c) ∧
      (∀ p ∈ allPartitions specBundle, ∀ asgn2 rc3,
          assignPartition specBids p (fun _ => 0) = some (asgn2, rc3) →
          ∀ c2, maxPartitionCost specBids rc3 = some c2 → c ≤ c2) :=
  max_partition_winner_spec specBundle specBids (by decide) (by decide)

/-! ### Single-item mechanisms (OSI, PSI, PPSI, SSI)

Python's `sorted(bid_tuples, key=lambda entry: entry[1])` is a stable
sort by bid value; a stable sort is extensionally unique, so it is
embedded as `List.insertionSort` (which Mathlib shows is stable) on the
same key. -/

/-- The sort key of OSI/PSI: ascending bid value. -/
def bidLE (a b : RobotId × Cost) : Prop := a.2 ≤ b.2

instance : DecidableRel bidLE := fun a b => inferInstanceAs (Decidable (a.2 ≤ b.2))

instance : IsTotal (RobotId × Cost) bidLE := ⟨fun a b => le_total a.2 b.2⟩

instance : IsTrans (RobotId × Cost) bidLE := ⟨fun _ _ _ hab hbc => le_trans hab hbc⟩

/-- Python's `sorted(bid_tuples, key=lambda entry: entry[1])`. -/
def sortBids (l : List (RobotId × Cost)) : List (RobotId × Cost) :=
  l.insertionSort bidLE

/-- The bid-collection loop of `AuctionOSI.determine_winner`: for every
robot of the round (in ledger order), skip it when it already won this
task, otherwise read its bid for the singleton key
`tuple([task_id])` — a *direct* dict indexing, so a missing key raises
`KeyError` (modelled as `none`) and aborts the phase. -/
def osiCollectBids (excluded : List RobotId) (tid : TaskId) :
    RoundBids → Option (List (RobotId × Cost))
  | [] => some []
  | (r, bs) :: rest =>
      if r ∈ excluded then osiCollectBids excluded tid rest
      else
        match lookupA bs [tid] with
        | none => none
        | some c => (osiCollectBids excluded tid rest).map (fun l => (r, c) :: l)

namespace AuctionOSI

/-- The method `AuctionOSI.determine_winner` for the announced task (the bundle's
first task): collect eligible bids, sort ascending, award the
`num_robots` lowest bidders, and extend the task's award list.  Returns
the winner ids and the updated `awarded` store (`none` = `KeyError`). -/
def determine_winner (bids : RoundBids) (aw : Awarded) (task : Task) :
    Option (List RobotId × Awarded) :=
  (osiCollectBids (awardedFor aw task.task_id) task.task_id bids).map fun tuples =>
    let winner_ids := ((sortBids tuples).take task.num_robots).map Prod.fst
    (winner_ids, updateA aw task.task_id (awardedFor aw task.task_id ++ winner_ids))

/-- The method `AuctionOSI.award`: bump `num_robots_allocated` once per winner and
set `awarded` only once the count reaches `num_robots`. -/
def award (task : Task) (winner_ids : List RobotId) : Task :=
  let t := { task with
    num_robots_allocated := task.num_robots_allocated + winner_ids.length }
  if t.num_robots_allocated = t.num_robots then { t with awarded := true } else t

end AuctionOSI

/-- The per-task bid collection of `AuctionPSI.determine_winner` /
`AuctionPPSI.determine_winner`: as in OSI but the `KeyError` for a
missing singleton bid is caught (`except KeyError`) and the robot is
skipped. -/
def psiEligible (bids : RoundBids) (excluded : List RobotId) (tid : TaskId) :
    List (RobotId × Cost) :=
  bids.filterMap fun rb =>
    if rb.1 ∈ excluded then none
    else (lookupA rb.2 [tid]).map fun c => (rb.1, c)

namespace AuctionPSI

/-- The winners of one task in PSI's per-task loop: the `num_robots`
lowest of the ascending-sorted eligible bids. -/
def winnersFor (bids : RoundBids) (aw : Awarded) (task : Task) : List RobotId :=
  ((sortBids (psiEligible bids (awardedFor aw task.task_id) task.task_id)).take
    task.num_robots).map Prod.fst

/-- The method `AuctionPSI.determine_winner`: per task of the bundle, compute the
winners and extend that task's award list (`task_winners` is assembled
in bundle order). -/
def determine_winner (bids : RoundBids) (aw : Awarded) :
    List Task → List (TaskId × List RobotId) × Awarded
  | [] => ([], aw)
  | t :: rest =>
      let w := winnersFor bids aw t
      let aw2 := updateA aw t.task_id (awardedFor aw t.task_id ++ w)
      let rec_result := determine_winner bids aw2 rest
      ((t.task_id, w) :: rec_result.1, rec_result.2)

/-- The per-task effect of `AuctionPSI.award`: `won_task.awarded = True`
with no update of `num_robots_allocated` and no check against
`num_robots`. -/
def awardTask (t : Task) : Task := { t with awarded := true }

/-- The method `AuctionPSI.award`: for every task id in `task_winners` (every task
of the bundle, even one with an empty winner list), mark the item
awarded. -/
def award (task_winners : List (TaskId × List RobotId)) (items : List Task) :
    List Task :=
  items.map fun t =>
    if (lookupA task_winners t.task_id).isSome then awardTask t else t

end AuctionPSI

namespace AuctionPPSI

/-- The method `AuctionPPSI.determine_winner`: the same per-task loop as PSI but
with the `awarded[...].extend(winner_ids)` line commented out, so every
task is scored against the *original* award lists; the result is only
returned, not awarded. -/
def determine_winner (bids : RoundBids) (aw : Awarded) :
    List Task → List (TaskId × List RobotId)
  | [] => []
  | t :: rest =>
      (t.task_id, AuctionPSI.winnersFor bids aw t) :: determine_winner bids aw rest

end AuctionPPSI

/-- The auctioneer state that PPSI touches: the items, the per-task
award lists, and the stored `ppsi_task_winners`. -/
structure AuctioneerState where
  items : List Task
  awarded : Awarded
  ppsi_task_winners : List (TaskId × List RobotId)
deriving Repr

/-- Running `AuctionPPSI` on a bundle: its state machine stops after
`determine_winner` (there is no `winner_determined` transition to
`award`), and the computed map is stored on the auctioneer
(`self.auctioneer.ppsi_task_winners = task_winners`). -/
def runPPSI (bids : RoundBids) (tasks : List Task) (s : AuctioneerState) :
    AuctioneerState :=
  { s with ppsi_task_winners := AuctionPPSI.determine_winner bids s.awarded tasks }

/-! ### SSI -/

/-- The sort key of SSI: ascending bid value (third tuple component). -/
def ssiLE (a b : RobotId × TaskId × Cost) : Prop := a.2.2 ≤ b.2.2

instance : DecidableRel ssiLE := fun a b => inferInstanceAs (Decidable (a.2.2 ≤ b.2.2))

instance : IsTotal (RobotId × TaskId × Cost) ssiLE := ⟨fun a b => le_total a.2.2 b.2.2⟩

instance : IsTrans (RobotId × TaskId × Cost) ssiLE :=
  ⟨fun _ _ _ hab hbc => le_trans hab hbc⟩

/-- One robot's contribution to SSI's `bid_tuples`: every recorded
task-subset key yields `(robot_id, task_ids[0], bid)` unless the robot
already won `task_ids[0]`.  `task_ids[0]` on an empty tuple raises
`IndexError` (modelled as `none`). -/
def ssiRobotTuples (r : RobotId) (aw : Awarded) :
    RobotBids → Option (List (RobotId × TaskId × Cost))
  | [] => some []
  | (ts, c) :: rest =>
      match ts with
      | [] => none
      | tid :: _ =>
          if r ∈ awardedFor aw tid then ssiRobotTuples r aw rest
          else (ssiRobotTuples r aw rest).map (fun l => (r, tid, c) :: l)

/-- SSI's `bid_tuples` over all robots of the round, in ledger order. -/
def ssiTuples (aw : Awarded) : RoundBids → Option (List (RobotId × TaskId × Cost))
  | [] => some []
  | (r, bs) :: rest =>
      match ssiRobotTuples r aw bs with
      | none => none
      | some l1 => (ssiTuples aw rest).map (fun l2 => l1 ++ l2)

namespace AuctionSSI

/-- The method `AuctionSSI.determine_winner`: build the eligible bid tuples, sort
ascending by bid, and award exactly the single first (lowest) tuple's
`(task, robot)` pair, extending that task's award list.  `none` models
the `IndexError` crashes (empty tuple key, or no eligible bids at
`bid_tuples[0]`). -/
def determine_winner (bids : RoundBids) (aw : Awarded) :
    Option (TaskId × List RobotId × Awarded) :=
  (ssiTuples aw bids).bind fun tuples =>
    match tuples.insertionSort ssiLE with
    | [] => none
    | t :: _ =>
        some (t.2.1, [t.1], updateA aw t.2.1 (awardedFor aw t.2.1 ++ [t.1]))

end AuctionSSI

/-! ### Mechanism dispatch and the allocation loop
(`Auctioneer.choose_mechanism`) -/

/-- The mechanisms the dispatch chain can instantiate. -/
inductive MechanismKind
  | OSI | PSI | SSI | RR | SUM | MAX | MAN
deriving DecidableEq, Repr

/-- The `if mechanism == 'OSI': ... elif ...` chain at the bottom of
`choose_mechanism`'s round loop.  The source has *no* else branch: a
name matching none of the seven tests (note: `'PPSI'` is not among
them) instantiates nothing, raises nothing, and simply falls through. -/
def dispatchMechanism (name : String) : Option MechanismKind :=
  if name = "OSI" then some MechanismKind.OSI
  else if name = "PSI" then some MechanismKind.PSI
  else if name = "SSI" then some MechanismKind.SSI
  else if name = "RR" then some MechanismKind.RR
  else if name = "SUM" then some MechanismKind.SUM
  else if name = "MAX" then some MechanismKind.MAX
  else if name = "MAN" then some MechanismKind.MAN
  else none

/-- Tests whether `unallocated = [item for item in self.items if not item.awarded]`
is nonempty. -/
def hasUnallocated (items : List Task) : Bool :=
  items.any (fun t => !t.awarded)

/-- The `while True` round loop of `choose_mechanism`, parameterized by
`run`, the state change a dispatched mechanism makes to the items (the
seven mechanisms are modelled separately; C9 concerns only the
dispatch).  Each iteration recomputes the unallocated set, exits when
it is empty (returning the final round counter), otherwise opens a new
round and dispatches; an unmatched name changes nothing.  `fuel` bounds
the number of iterations: `none` means the fuel was exhausted with the
loop still running. -/
def allocationLoop (run : MechanismKind → List Task → List Task)
    (name : String) : Nat → List Task → Nat → Option Nat
  | 0, _, _ => none
  | fuel + 1, items, round =>
      if hasUnallocated items then
        match dispatchMechanism name with
        | some m => allocationLoop run name fuel (run m items) (round + 1)
        | none => allocationLoop run name fuel items (round + 1)
      else some round

/-! ### The bid ledger and `Auctioneer.on_bid_received` -/

/-- A value of `self.bids` (a `defaultdict(int)`): either the integer
default `0` (what `self.bids[self.auction_round]` yields before
`choose_mechanism` has assigned a dict for that round) or a per-round
bid dict. -/
inductive RoundEntry
  | intDefault (n : Int)
  | table (m : RoundBids)
deriving DecidableEq, Repr

/-- The auctioneer's bid ledger: the round counter and `self.bids`. -/
structure Ledger where
  auction_round : Nat
  bids : List (Nat × RoundEntry)
deriving DecidableEq, Repr

/-- The state after `Auctioneer.__init__`: `self.auction_round = 0`,
`self.bids = defaultdict(int)` (empty). -/
def Ledger.init : Ledger := ⟨0, []⟩

/-- Reads `self.bids[round]` on the `defaultdict(int)`: a missing key inserts
and returns the integer default `0`. -/
def defaultGet (bids : List (Nat × RoundEntry)) (r : Nat) :
    List (Nat × RoundEntry) × RoundEntry :=
  match lookupA bids r with
  | some e => (bids, e)
  | none => (bids ++ [(r, RoundEntry.intDefault 0)], RoundEntry.intDefault 0)

/-- The handler `Auctioneer.on_bid_received`: look up the current round's ledger
entry; writing through an integer entry (`round_bids[robot_id]` on an
`int`) raises `TypeError` — the bid is not recorded (`none`).  On a
dict entry, ensure the robot's sub-dict exists (`defaultdict(str)`
yields a falsy `''` for a missing robot, replaced by `{}`), then
overwrite the `tuple(task_ids)` key with the bid. -/
def on_bid_received (st : Ledger) (robot : RobotId) (task_ids : TaskSubset)
    (bid : Cost) : Option Ledger :=
  let ge := defaultGet st.bids st.auction_round
  match ge.2 with
  | RoundEntry.intDefault _ => none
  | RoundEntry.table m =>
      let rb := (lookupA m robot).getD []
      some { st with
        bids := updateA ge.1 st.auction_round
          (RoundEntry.table (updateA m robot (updateA rb task_ids bid))) }

/-- The round opening in `choose_mechanism`'s loop:
`self.auction_round += 1; self.bids[self.auction_round] =
defaultdict(str)`. -/
def openRound (st : Ledger) : Ledger :=
  { auction_round := st.auction_round + 1,
    bids := updateA st.bids (st.auction_round + 1) (RoundEntry.table []) }

/-- Read back a recorded bid: `self.bids[round][robot_id][task_ids]`. -/
def getBid (st : Ledger) (r : Nat) (robot : RobotId) (ts : TaskSubset) :
    Option Cost :=
  match lookupA st.bids r with
  | some (RoundEntry.table m) => (lookupA m robot).bind fun rb => lookupA rb ts
  | _ => none

/-! ### Association-list lemmas -/

theorem lookupA_updateA_self {α β : Type} [DecidableEq α] :
    ∀ (l : List (α × β)) (k : α) (v : β), lookupA (updateA l k v) k = some v := by
  intro l k v
  induction l with
  | nil => simp [updateA, lookupA]
  | cons hd rest ih =>
      obtain ⟨k2, v2⟩ := hd
      by_cases h : k2 = k
      · simp [updateA, h, lookupA]
      · simp [updateA, h, lookupA, ih]

theorem lookupA_updateA_ne {α β : Type} [DecidableEq α] :
    ∀ (l : List (α × β)) (k k2 : α) (v : β), k ≠ k2 →
      lookupA (updateA l k v) k2 = lookupA l k2 := by
  intro l k k2 v hne
  induction l with
  | nil => simp [updateA, lookupA, hne]
  | cons hd rest ih =>
      obtain ⟨k3, v3⟩ := hd
      by_cases h : k3 = k
      · subst h
        simp [updateA, lookupA, hne]
      · simp [updateA, h, lookupA, ih]

theorem awardedFor_updateA_ne (aw : Awarded) (k k2 : TaskId) (v : List RobotId)
    (h : k ≠ k2) : awardedFor (updateA aw k v) k2 = awardedFor aw k2 := by
  simp [awardedFor, lookupA_updateA_ne aw k k2 v h]

/-! ### C1: the task invariant under the award phases -/

/-- C1 counterexample: starting from a task satisfying the invariant
(`need = 2`, `have = 0`, not awarded) with two winners computed,
`AuctionPSI.award` marks the task awarded without touching
`num_robots_allocated`, so afterwards `awarded = true` while
`have = 0 ≠ 2 = need`: PSI's award phase does not preserve the
invariant. -/
theorem psi_award_invariant_counterexample :
    taskInvariant ⟨"A", 2, 0, false⟩ ∧
    AuctionPSI.award [("A", ["r1", "r2"])] [⟨"A", 2, 0, false⟩] =
      [⟨"A", 2, 0, true⟩] ∧
    ¬ taskInvariant ⟨"A", 2, 0, true⟩ := by
  refine ⟨by decide, ?_, by decide⟩
  simp [AuctionPSI.award, AuctionPSI.awardTask, lookupA]

/-- C1 (amended): OSI's award phase preserves
`0 ≤ have ≤ need ∧ (awarded ⇔ have = need)` whenever the number of
winners does not exceed the remaining capacity `need - have`; PSI's
award phase does not preserve the invariant — it sets `awarded`
unconditionally and leaves the allocated count unchanged. -/
theorem award_invariant_amended (t : Task) (w : List RobotId)
    (hinv : taskInvariant t)
    (hlen : w.length ≤ t.num_robots - t.num_robots_allocated) :
    taskInvariant (AuctionOSI.award t w) ∧
    ∀ u : Task, (AuctionPSI.awardTask u).awarded = true ∧
      (AuctionPSI.awardTask u).num_robots_allocated = u.num_robots_allocated := by
  refine ⟨?_, fun u => ⟨rfl, rfl⟩⟩
  obtain ⟨hle, hiff⟩ := hinv
  unfold AuctionOSI.award
  by_cases h : t.num_robots_allocated + w.length = t.num_robots
  · simp [taskInvariant, h]
  · have hb : t.awarded = false := by
      cases hb : t.awarded
      · rfl
      · exfalso
        have hall : t.num_robots_allocated = t.num_robots := hiff.mp hb
        omega
    simp only [taskInvariant, if_neg h, hb]
    refine ⟨by omega, by simp [h]⟩

/-- Witness for `award_invariant_amended`: a task with `need = 2`,
`have = 1` awarded one more winner. -/
theorem award_invariant_amended_witness :
    taskInvariant (AuctionOSI.award ⟨"A", 2, 1, false⟩ ["r2"]) ∧
    ∀ u : Task, (AuctionPSI.awardTask u).awarded = true ∧
      (AuctionPSI.awardTask u).num_robots_allocated = u.num_robots_allocated :=
  award_invariant_amended ⟨"A", 2, 1, false⟩ ["r2"] (by decide) (by decide)

/-! ### C5: SSI awards exactly one pair -/

theorem ssiRobotTuples_spec (r : RobotId) (aw : Awarded) :
    ∀ (bs : RobotBids) (l : List (RobotId × TaskId × Cost)),
      ssiRobotTuples r aw bs = some l →
      (∀ u ∈ l, u.1 = r ∧ u.1 ∉ awardedFor aw u.2.1 ∧
        ∃ tl, (u.2.1 :: tl, u.2.2) ∈ bs) ∧
      (∀ tid tl c, (tid :: tl, c) ∈ bs → r ∉ awardedFor aw tid → (r, tid, c) ∈ l) := by
  intro bs
  induction bs with
  | nil =>
      intro l hl
      obtain rfl : ([] : List (RobotId × TaskId × Cost)) = l := Option.some.inj hl
      exact ⟨by simp, by simp⟩
  | cons hd rest ih =>
      intro l hl
      obtain ⟨ts, c⟩ := hd
      cases ts with
      | nil => exact absurd hl (by simp [ssiRobotTuples])
      | cons tid tl =>
          by_cases hex : r ∈ awardedFor aw tid
          · have hl2 : ssiRobotTuples r aw rest = some l := by
              simpa [ssiRobotTuples, hex] using hl
            rcases ih l hl2 with ⟨h1, h2⟩
            constructor
            · intro u hu
              rcases h1 u hu with ⟨ha, hb, tl2, hc⟩
              exact ⟨ha, hb, tl2, List.mem_cons_of_mem _ hc⟩
            · intro tid2 tl2 c2 hmem hnex
              rcases List.mem_cons.mp hmem with heq | hmem2
              · obtain ⟨heq1, heq2⟩ := Prod.mk.inj heq
                obtain ⟨rfl, rfl⟩ := List.cons.inj heq1
                exact absurd hex hnex
              · exact h2 tid2 tl2 c2 hmem2 hnex
          · have hl2 : (ssiRobotTuples r aw rest).map (fun l2 => (r, tid, c) :: l2) = some l := by
              simpa [ssiRobotTuples, hex] using hl
            rcases Option.map_eq_some'.mp hl2 with ⟨l2, hrec, rfl⟩
            rcases ih l2 hrec with ⟨h1, h2⟩
            constructor
            · intro u hu
              rcases List.mem_cons.mp hu with rfl | hu2
              · exact ⟨rfl, hex, tl, List.mem_cons_self _ _⟩
              · rcases h1 u hu2 with ⟨ha, hb, tl2, hc⟩
                exact ⟨ha, hb, tl2, List.mem_cons_of_mem _ hc⟩
            · intro tid2 tl2 c2 hmem hnex
              rcases List.mem_cons.mp hmem with heq | hmem2
              · obtain ⟨heq1, heq2⟩ := Prod.mk.inj heq
                obtain ⟨rfl, rfl⟩ := List.cons.inj heq1
                exact heq2 ▸ List.mem_cons_self _ _
              · exact List.mem_cons_of_mem _ (h2 tid2 tl2 c2 hmem2 hnex)

theorem ssiTuples_spec (aw : Awarded) :
    ∀ (bids : RoundBids) (l : List (RobotId × TaskId × Cost)),
      ssiTuples aw bids = some l →
      (∀ u ∈ l, u.1 ∉ awardedFor aw u.2.1 ∧
        ∃ bs, (u.1, bs) ∈ bids ∧ ∃ tl, (u.2.1 :: tl, u.2.2) ∈ bs) ∧
      (∀ r bs tid tl c, (r, bs) ∈ bids → (tid :: tl, c) ∈ bs →
        r ∉ awardedFor aw tid → (r, tid, c) ∈ l) := by
  intro bids
  induction bids with
  | nil =>
      intro l hl
      obtain rfl : ([] : List (RobotId × TaskId × Cost)) = l := Option.some.inj hl
      exact ⟨by simp, by simp⟩
  | cons hd rest ih =>
      intro l hl
      obtain ⟨r0, bs0⟩ := hd
      cases hrob : ssiRobotTuples r0 aw bs0 with
      | none => exact absurd hl (by simp [ssiTuples, hrob])
      | some l1 =>
          have hl2 : (ssiTuples aw rest).map (fun l2 => l1 ++ l2) = some l := by
            simpa [ssiTuples, hrob] using hl
          rcases Option.map_eq_some'.mp hl2 with ⟨l2, hrec, rfl⟩
          rcases ssiRobotTuples_spec r0 aw bs0 l1 hrob with ⟨hr1, hr2⟩
          rcases ih l2 hrec with ⟨hi1, hi2⟩
          constructor
          · intro u hu
            rcases List.mem_append.mp hu with hu1 | hu2
            · rcases hr1 u hu1 with ⟨rfl, hb, tl, hc⟩
              exact ⟨hb, bs0, List.mem_cons_self _ _, tl, hc⟩
            · rcases hi1 u hu2 with ⟨hb, bs, hbs, tl, hc⟩
              exact ⟨hb, bs, List.mem_cons_of_mem _ hbs, tl, hc⟩
          · intro r bs tid tl c hbs hmem hnex
            rcases List.mem_cons.mp hbs with heq | hbs2
            · obtain ⟨rfl, rfl⟩ := Prod.mk.inj heq
              exact List.mem_append.mpr (Or.inl (hr2 tid tl c hmem hnex))
            · exact List.mem_append.mpr (Or.inr (hi2 r bs tid tl c hbs2 hmem hnex))

/-- C5 (amended): whenever the round has at least one *eligible*
recorded bid, SSI awards exactly one `(task, bidder)` pair — the first
tuple of the stably-sorted eligible bid list, whose bid value is the
global minimum over all eligible recorded bids (bids by robots not
already in that task's award list); and every eligible recorded bid is
in that list.  The original claim fails because it does not account for
the eligibility restriction (see the counterexample). -/
theorem ssi_single_award_spec (bids : RoundBids) (aw : Awarded)
    (tuples : List (RobotId × TaskId × Cost))
    (ht : ssiTuples aw bids = some tuples) (hne : tuples ≠ []) :
    ∃ tid r c aw2, AuctionSSI.determine_winner bids aw = some (tid, [r], aw2) ∧
      (r, tid, c) ∈ tuples ∧
      (∀ u ∈ tuples, c ≤ u.2.2) ∧
      (∀ u ∈ tuples, u.1 ∉ awardedFor aw u.2.1 ∧
        ∃ bs, (u.1, bs) ∈ bids ∧ ∃ tl, (u.2.1 :: tl, u.2.2) ∈ bs) ∧
      (∀ r2 bs tid2 tl c2, (r2, bs) ∈ bids → (tid2 :: tl, c2) ∈ bs →
        r2 ∉ awardedFor aw tid2 → (r2, tid2, c2) ∈ tuples) ∧
      aw2 = updateA aw tid (awardedFor aw tid ++ [r]) := by
  have hperm : List.Perm (tuples.insertionSort ssiLE) tuples :=
    List.perm_insertionSort ssiLE tuples
  have hsorted : List.Sorted ssiLE (tuples.insertionSort ssiLE) :=
    List.sorted_insertionSort ssiLE tuples
  cases hs : tuples.insertionSort ssiLE with
  | nil => exact absurd (List.Perm.symm (hs ▸ hperm)).eq_nil hne
  | cons t rest =>
      refine ⟨t.2.1, t.1, t.2.2, _, ?_, ?_, ?_, (ssiTuples_spec aw bids tuples ht).1,
        (ssiTuples_spec aw bids tuples ht).2, rfl⟩
      · simp [AuctionSSI.determine_winner, ht, hs]
      · exact (hs ▸ hperm).mem_iff.mp (List.mem_cons_self t rest)
      · intro u hu
        have hu2 : u ∈ t :: rest := (hs ▸ hperm).mem_iff.mpr hu
        rcases List.mem_cons.mp hu2 with rfl | hu3
        · exact le_refl _
        · exact List.rel_of_sorted_cons (hs ▸ hsorted) u hu3

/-- Concrete SSI round for the witness: r1 bids A=3, B=4; r2 bids A=6,
B=1; nobody excluded. -/
def ssiDemoBids : RoundBids :=
  [("r1", [(["A"], 3), (["B"], 4)]), ("r2", [(["A"], 6), (["B"], 1)])]

/-- Witness for `ssi_single_award_spec` on `ssiDemoBids`. -/
theorem ssi_single_award_spec_witness :
    ∃ tid r c aw2, AuctionSSI.determine_winner ssiDemoBids [] = some (tid, [r], aw2) ∧
      (r, tid, c) ∈ [("r1", ("A", (3 : Cost))), ("r1", ("B", 4)),
        ("r2", ("A", 6)), ("r2", ("B", 1))] ∧
      (∀ u ∈ [("r1", ("A", (3 : Cost))), ("r1", ("B", 4)),
        ("r2", ("A", 6)), ("r2", ("B", 1))], c ≤ u.2.2) ∧
      (∀ u ∈ [("r1", ("A", (3 : Cost))), ("r1", ("B", 4)),
        ("r2", ("A", 6)), ("r2", ("B", 1))], u.1 ∉ awardedFor [] u.2.1 ∧
        ∃ bs, (u.1, bs) ∈ ssiDemoBids ∧ ∃ tl, (u.2.1 :: tl, u.2.2) ∈ bs) ∧
      (∀ r2 bs tid2 tl c2, (r2, bs) ∈ ssiDemoBids → (tid2 :: tl, c2) ∈ bs →
        r2 ∉ awardedFor [] tid2 → (r2, tid2, c2) ∈
          [("r1", ("A", (3 : Cost))), ("r1", ("B", 4)),
            ("r2", ("A", 6)), ("r2", ("B", 1))]) ∧
      aw2 = updateA [] tid (awardedFor [] tid ++ [r]) :=
  ssi_single_award_spec ssiDemoBids []
    [("r1", ("A", 3)), ("r1", ("B", 4)), ("r2", ("A", 6)), ("r2", ("B", 1))]
    rfl (by decide)

/-- C5 counterexample: in round bids where r1 bid 1 on task A and r2 bid
5, but r1 is already in A's award list, SSI awards (A, r2) at bid 5 even
though the global minimum among all bids *recorded* in the round is
r1's 1 < 5 — the claim's "global minimum across all bidders with bids
recorded" fails without the eligibility restriction. -/
theorem ssi_global_min_counterexample :
    AuctionSSI.determine_winner [("r1", [(["A"], 1)]), ("r2", [(["A"], 5)])]
        [("A", ["r1"])] =
      some ("A", ["r2"], [("A", ["r1", "r2"])]) ∧
    lookupA [("r1", [(["A"], (1 : Cost))]), ("r2", [(["A"], 5)])] "r1" =
      some [(["A"], 1)] ∧
    (1 : Cost) < 5 := by
  refine ⟨?_, by decide, by norm_num⟩
  norm_num +decide [AuctionSSI.determine_winner, ssiTuples, ssiRobotTuples,
    awardedFor, lookupA, updateA, List.insertionSort, List.orderedInsert, ssiLE]

/-! ### C6: the single-item winner rule (OSI, PSI); C7: PPSI defers -/

theorem osiCollectBids_spec (excluded : List RobotId) (tid : TaskId) :
    ∀ (bids : RoundBids) (l : List (RobotId × Cost)),
      osiCollectBids excluded tid bids = some l →
      (∀ u ∈ l, u.1 ∉ excluded ∧ ∃ bs, (u.1, bs) ∈ bids ∧
        lookupA bs [tid] = some u.2) ∧
      (∀ r bs, (r, bs) ∈ bids → r ∉ excluded →
        ∃ c, lookupA bs [tid] = some c ∧ (r, c) ∈ l) := by
  intro bids
  induction bids with
  | nil =>
      intro l hl
      obtain rfl : ([] : List (RobotId × Cost)) = l := Option.some.inj hl
      exact ⟨by simp, by simp⟩
  | cons hd rest ih =>
      intro l hl
      obtain ⟨r0, bs0⟩ := hd
      by_cases hex : r0 ∈ excluded
      · have hl2 : osiCollectBids excluded tid rest = some l := by
          simpa [osiCollectBids, hex] using hl
        rcases ih l hl2 with ⟨h1, h2⟩
        constructor
        · intro u hu
          rcases h1 u hu with ⟨ha, bs, hb, hc⟩
          exact ⟨ha, bs, List.mem_cons_of_mem _ hb, hc⟩
        · intro r bs hbs hnex
          rcases List.mem_cons.mp hbs with heq | hbs2
          · obtain ⟨rfl, rfl⟩ := Prod.mk.inj heq
            exact absurd hex hnex
          · exact h2 r bs hbs2 hnex
      · cases hlk : lookupA bs0 [tid] with
        | none => exact absurd hl (by simp [osiCollectBids, hex, hlk])
        | some c0 =>
            have hl2 : (osiCollectBids excluded tid rest).map
                (fun l2 => (r0, c0) :: l2) = some l := by
              simpa [osiCollectBids, hex, hlk] using hl
            rcases Option.map_eq_some'.mp hl2 with ⟨l2, hrec, rfl⟩
            rcases ih l2 hrec with ⟨h1, h2⟩
            constructor
            · intro u hu
              rcases List.mem_cons.mp hu with rfl | hu2
              · exact ⟨hex, bs0, List.mem_cons_self _ _, hlk⟩
              · rcases h1 u hu2 with ⟨ha, bs, hb, hc⟩
                exact ⟨ha, bs, List.mem_cons_of_mem _ hb, hc⟩
            · intro r bs hbs hnex
              rcases List.mem_cons.mp hbs with heq | hbs2
              · obtain ⟨rfl, rfl⟩ := Prod.mk.inj heq
                exact ⟨c0, hlk, List.mem_cons_self _ _⟩
              · rcases h2 r bs hbs2 hnex with ⟨c, hc1, hc2⟩
                exact ⟨c, hc1, List.mem_cons_of_mem _ hc2⟩

/-- OSI's crash case (for C8): an eligible robot whose round entry lacks
the announced task's key makes the collection raise `KeyError`. -/
theorem osiCollectBids_missing_none (excluded : List RobotId) (tid : TaskId) :
    ∀ bids : RoundBids, (∃ rb ∈ bids, rb.1 ∉ excluded ∧ lookupA rb.2 [tid] = none) →
      osiCollectBids excluded tid bids = none := by
  intro bids
  induction bids with
  | nil => intro h; rcases h with ⟨rb, hrb, _⟩; exact absurd hrb (by simp)
  | cons hd rest ih =>
      intro h
      obtain ⟨r0, bs0⟩ := hd
      rcases h with ⟨rb, hrb, hnex, hnone⟩
      rcases List.mem_cons.mp hrb with rfl | hrb2
      · simp [osiCollectBids, hnex, hnone]
      · by_cases hex : r0 ∈ excluded
        · simpa [osiCollectBids, hex] using ih ⟨rb, hrb2, hnex, hnone⟩
        · cases hlk : lookupA bs0 [tid] with
          | none => simp [osiCollectBids, hex, hlk]
          | some c0 => simp [osiCollectBids, hex, hlk, ih ⟨rb, hrb2, hnex, hnone⟩]

/-- The function `winnersFor` reads the award store only at the task's own id. -/
theorem winnersFor_congr (bids : RoundBids) (aw aw2 : Awarded) (t : Task)
    (h : awardedFor aw2 t.task_id = awardedFor aw t.task_id) :
    AuctionPSI.winnersFor bids aw2 t = AuctionPSI.winnersFor bids aw t := by
  unfold AuctionPSI.winnersFor
  rw [h]

/-- PSI scores each task of a duplicate-free bundle against the award
lists as they stood when the round began: the assembled `task_winners`
maps each task id to the winners computed from the original store. -/
theorem psi_lookup_winners (bids : RoundBids) :
    ∀ (tasks : List Task) (aw aw0 : Awarded),
      (tasks.map Task.task_id).Nodup →
      (∀ t ∈ tasks, awardedFor aw t.task_id = awardedFor aw0 t.task_id) →
      ∀ t ∈ tasks,
        lookupA (AuctionPSI.determine_winner bids aw tasks).1 t.task_id =
          some (AuctionPSI.winnersFor bids aw0 t) := by
  intro tasks
  induction tasks with
  | nil => intro aw aw0 _ _ t ht; exact absurd ht (by simp)
  | cons t0 rest ih =>
      intro aw aw0 hnd hagree t ht
      have hnd2 : (rest.map Task.task_id).Nodup := (List.nodup_cons.mp hnd).2
      have hnotin : t0.task_id ∉ rest.map Task.task_id := (List.nodup_cons.mp hnd).1
      rcases List.mem_cons.mp ht with rfl | ht2
      · have hw : AuctionPSI.winnersFor bids aw t = AuctionPSI.winnersFor bids aw0 t :=
          winnersFor_congr bids aw0 aw t (hagree t (List.mem_cons_self _ _))
        show lookupA ((t.task_id, AuctionPSI.winnersFor bids aw t) ::
            (AuctionPSI.determine_winner bids _ rest).1) t.task_id = _
        simp [lookupA, hw]
      · have hne : t0.task_id ≠ t.task_id := by
          intro heq
          exact hnotin (heq ▸ List.mem_map.mpr ⟨t, ht2, rfl⟩)
        show lookupA ((t0.task_id, AuctionPSI.winnersFor bids aw t0) ::
            (AuctionPSI.determine_winner bids _ rest).1) t.task_id = _
        simp only [lookupA, if_neg hne]
        refine ih _ aw0 hnd2 ?_ t ht2
        intro t2 ht3
        rw [awardedFor_updateA_ne aw t0.task_id t2.task_id _ ?_]
        · exact hagree t2 (List.mem_cons_of_mem _ ht3)
        · intro heq
          exact hnotin (heq ▸ List.mem_map.mpr ⟨t2, ht3, rfl⟩)

/-- PPSI computes the same per-task winner map as PSI on a
duplicate-free bundle (PSI's in-loop `awarded` extension only ever
touches the task just scored). -/
theorem psi_determine_winner_frozen (bids : RoundBids) :
    ∀ (tasks : List Task) (aw aw0 : Awarded),
      (tasks.map Task.task_id).Nodup →
      (∀ t ∈ tasks, awardedFor aw t.task_id = awardedFor aw0 t.task_id) →
      (AuctionPSI.determine_winner bids aw tasks).1 =
        AuctionPPSI.determine_winner bids aw0 tasks := by
  intro tasks
  induction tasks with
  | nil => intro aw aw0 _ _; rfl
  | cons t0 rest ih =>
      intro aw aw0 hnd hagree
      have hnd2 : (rest.map Task.task_id).Nodup := (List.nodup_cons.mp hnd).2
      have hnotin : t0.task_id ∉ rest.map Task.task_id := (List.nodup_cons.mp hnd).1
      show (t0.task_id, AuctionPSI.winnersFor bids aw t0) ::
          (AuctionPSI.determine_winner bids _ rest).1 =
        (t0.task_id, AuctionPSI.winnersFor bids aw0 t0) ::
          AuctionPPSI.determine_winner bids aw0 rest
      rw [winnersFor_congr bids aw0 aw t0 (hagree t0 (List.mem_cons_self _ _))]
      congr 1
      refine ih _ aw0 hnd2 ?_
      intro t2 ht3
      rw [awardedFor_updateA_ne aw t0.task_id t2.task_id _ ?_]
      · exact hagree t2 (List.mem_cons_of_mem _ ht3)
      · intro heq
        exact hnotin (heq ▸ List.mem_map.mpr ⟨t2, ht3, rfl⟩)

/-- C6: for every task decided, the winner set is the lowest-cost
`num_robots` bidders after the stable ascending sort of that task's
eligible bids (bids of robots not already in the task's award list):
OSI for the single announced task (given its bid collection succeeds),
and PSI per task of a duplicate-free bundle independently. -/
theorem single_item_winner_rule (bids : RoundBids) (aw : Awarded) (task : Task)
    (tasks : List Task) (tuples : List (RobotId × Cost))
    (hosi : osiCollectBids (awardedFor aw task.task_id) task.task_id bids = some tuples)
    (hnd : (tasks.map Task.task_id).Nodup) :
    (AuctionOSI.determine_winner bids aw task =
        some (((sortBids tuples).take task.num_robots).map Prod.fst,
          updateA aw task.task_id (awardedFor aw task.task_id ++
            ((sortBids tuples).take task.num_robots).map Prod.fst)) ∧
      List.Sorted bidLE (sortBids tuples) ∧
      List.Perm (sortBids tuples) tuples ∧
      (∀ u ∈ tuples, u.1 ∉ awardedFor aw task.task_id ∧
        ∃ bs, (u.1, bs) ∈ bids ∧ lookupA bs [task.task_id] = some u.2) ∧
      (∀ r bs, (r, bs) ∈ bids → r ∉ awardedFor aw task.task_id →
        ∃ c, lookupA bs [task.task_id] = some c ∧ (r, c) ∈ tuples)) ∧
    (∀ t ∈ tasks, AuctionPSI.winnersFor bids aw t =
        ((sortBids (psiEligible bids (awardedFor aw t.task_id) t.task_id)).take
          t.num_robots).map Prod.fst ∧
      lookupA (AuctionPSI.determine_winner bids aw tasks).1 t.task_id =
        some (AuctionPSI.winnersFor bids aw t)) := by
  constructor
  · refine ⟨?_, List.sorted_insertionSort bidLE tuples,
      List.perm_insertionSort bidLE tuples,
      (osiCollectBids_spec _ _ bids tuples hosi).1,
      (osiCollectBids_spec _ _ bids tuples hosi).2⟩
    show (osiCollectBids (awardedFor aw task.task_id) task.task_id bids).map _ = _
    rw [hosi]
    rfl
  · intro t ht
    exact ⟨rfl, psi_lookup_winners bids tasks aw aw hnd (fun _ _ => rfl) t ht⟩

/-- Concrete round for the C6 witness: three bidders on task A, two on
task B. -/
def siDemoBids : RoundBids :=
  [("r1", [(["A"], 3), (["B"], 9)]), ("r2", [(["A"], 7)]), ("r3", [(["A"], 5), (["B"], 2)])]

/-- The two demo tasks: A needs 2 robots, B needs 1. -/
def siTaskA : Task := ⟨"A", 2, 0, false⟩

/-- Demo task B. -/
def siTaskB : Task := ⟨"B", 1, 0, false⟩

/-- Witness for `single_item_winner_rule` on `siDemoBids`. -/
theorem single_item_winner_rule_witness :
    (AuctionOSI.determine_winner siDemoBids [] siTaskA =
        some (((sortBids [("r1", 3), ("r2", 7), ("r3", 5)]).take
            siTaskA.num_robots).map Prod.fst,
          updateA [] siTaskA.task_id (awardedFor [] siTaskA.task_id ++
            ((sortBids [("r1", 3), ("r2", 7), ("r3", 5)]).take
              siTaskA.num_robots).map Prod.fst)) ∧
      List.Sorted bidLE (sortBids [("r1", 3), ("r2", 7), ("r3", 5)]) ∧
      List.Perm (sortBids [("r1", 3), ("r2", 7), ("r3", 5)])
        [("r1", 3), ("r2", 7), ("r3", 5)] ∧
      (∀ u ∈ [("r1", (3 : Cost)), ("r2", 7), ("r3", 5)],
        u.1 ∉ awardedFor [] siTaskA.task_id ∧
        ∃ bs, (u.1, bs) ∈ siDemoBids ∧ lookupA bs [siTaskA.task_id] = some u.2) ∧
      (∀ r bs, (r, bs) ∈ siDemoBids → r ∉ awardedFor [] siTaskA.task_id →
        ∃ c, lookupA bs [siTaskA.task_id] = some c ∧
          (r, c) ∈ [("r1", (3 : Cost)), ("r2", 7), ("r3", 5)])) ∧
    (∀ t ∈ [siTaskA, siTaskB], AuctionPSI.winnersFor siDemoBids [] t =
        ((sortBids (psiEligible siDemoBids (awardedFor [] t.task_id) t.task_id)).take
          t.num_robots).map Prod.fst ∧
      lookupA (AuctionPSI.determine_winner siDemoBids [] [siTaskA, siTaskB]).1 t.task_id =
        some (AuctionPSI.winnersFor siDemoBids [] t)) :=
  single_item_winner_rule siDemoBids [] siTaskA [siTaskA, siTaskB]
    [("r1", 3), ("r2", 7), ("r3", 5)] rfl (by decide)

/-- C7: `AuctionPPSI` computes the same per-task winner map as PSI
(on a duplicate-free bundle) but awards nothing: the items, their
flags/counts, and the award lists are untouched, and the computed map is
stored on the auctioneer as `ppsi_task_winners`. -/
theorem ppsi_defers_award (bids : RoundBids) (tasks : List Task)
    (s : AuctioneerState) (hnd : (tasks.map Task.task_id).Nodup) :
    (runPPSI bids tasks s).items = s.items ∧
    (runPPSI bids tasks s).awarded = s.awarded ∧
    (runPPSI bids tasks s).ppsi_task_winners =
      AuctionPPSI.determine_winner bids s.awarded tasks ∧
    AuctionPPSI.determine_winner bids s.awarded tasks =
      (AuctionPSI.determine_winner bids s.awarded tasks).1 :=
  ⟨rfl, rfl, rfl,
    (psi_determine_winner_frozen bids tasks s.awarded s.awarded hnd
      (fun _ _ => rfl)).symm⟩

/-- Witness for `ppsi_defers_award` on the demo round. -/
theorem ppsi_defers_award_witness :
    (runPPSI siDemoBids [siTaskA, siTaskB] ⟨[siTaskA, siTaskB], [], []⟩).items =
      [siTaskA, siTaskB] ∧
    (runPPSI siDemoBids [siTaskA, siTaskB] ⟨[siTaskA, siTaskB], [], []⟩).awarded = [] ∧
    (runPPSI siDemoBids [siTaskA, siTaskB]
        ⟨[siTaskA, siTaskB], [], []⟩).ppsi_task_winners =
      AuctionPPSI.determine_winner siDemoBids [] [siTaskA, siTaskB] ∧
    AuctionPPSI.determine_winner siDemoBids [] [siTaskA, siTaskB] =
      (AuctionPSI.determine_winner siDemoBids [] [siTaskA, siTaskB]).1 :=
  ppsi_defers_award siDemoBids [siTaskA, siTaskB] ⟨[siTaskA, siTaskB], [], []⟩
    (by decide)

/-! ### C8: handling of missing bids -/

/-- Round bids for the C8 counterexample: r1 bid only on A, r2 only on
B. -/
def missingBidRound : RoundBids := [("r1", [(["A"], 3)]), ("r2", [(["B"], 4)])]

/-- C8 counterexample: OSI's winner determination does *not* tolerate a
missing bid.  With task A announced, r1 having bid 3 on A and r2 having
bid only on B, `AuctionOSI.determine_winner` hits the unguarded
`bids[robot_id][tuple([task_id])]` for r2 and aborts with `KeyError`
(`none`) instead of scoring r1's bid. -/
theorem osi_missing_bid_counterexample :
    AuctionOSI.determine_winner missingBidRound [] ⟨"A", 1, 0, false⟩ = none ∧
    lookupA missingBidRound "r1" = some [(["A"], 3)] ∧
    lookupA [(["A"], (3 : Cost))] ["A"] = some 3 := by
  refine ⟨?_, by decide, by decide⟩
  have h : osiCollectBids (awardedFor [] "A") "A" missingBidRound = none :=
    osiCollectBids_missing_none _ _ missingBidRound
      ⟨("r2", [(["B"], 4)]), by decide, by decide, by decide⟩
  show (osiCollectBids (awardedFor [] "A") "A" missingBidRound).map _ = none
  rw [h]
  rfl

/-- C8 (amended): a missing bid is treated as absence in PSI/PPSI (the
robot is skipped, all others are scored), in SSI (only recorded keys are
iterated, see `ssiTuples_spec`) and in SUM/MAX (the missing bid defaults
to `maxint`, and the returned minimum still scores every robot that did
bid); OSI alone aborts with a `KeyError` when an eligible robot lacks
the announced task's key. -/
theorem missing_bid_handling (bids : RoundBids) (excluded : List RobotId)
    (tid : TaskId) (rc : RobotId → Cost) (tasks : TaskSubset)
    (hb : bids ≠ []) :
    ((∃ rb ∈ bids, rb.1 ∉ excluded ∧ lookupA rb.2 [tid] = none) →
      osiCollectBids excluded tid bids = none) ∧
    (∀ r c, (r, c) ∈ psiEligible bids excluded tid ↔
      ∃ bs, (r, bs) ∈ bids ∧ r ∉ excluded ∧ lookupA bs [tid] = some c) ∧
    (∃ c r, min_bid_for_round bids tasks rc = some (c, r) ∧
      ∀ rb ∈ bids, ∀ c2, lookupA rb.2 tasks = some c2 → c ≤ c2 + rc rb.1) := by
  refine ⟨osiCollectBids_missing_none excluded tid bids, ?_, ?_⟩
  · intro r c
    constructor
    · intro h
      rcases List.mem_filterMap.mp h with ⟨rb, hrb, hf⟩
      by_cases hex : rb.1 ∈ excluded
      · simp [hex] at hf
      · simp only [hex, if_neg, if_false, Option.map_eq_some'] at hf
        rcases hf with ⟨c2, hc2, heq⟩
        obtain ⟨rfl, rfl⟩ := Prod.mk.inj heq
        exact ⟨rb.2, by simpa using hrb, hex, hc2⟩
    · intro h
      rcases h with ⟨bs, hbs, hex, hlk⟩
      exact List.mem_filterMap.mpr ⟨(r, bs), hbs, by simp [hex, hlk]⟩
  · rcases min_bid_for_round_spec bids tasks rc hb with ⟨c, r, heq, _, hall⟩
    refine ⟨c, r, heq, ?_⟩
    intro rb hrb c2 hc2
    have h3 := hall rb hrb
    rwa [candidateBid, hc2, Option.getD_some] at h3

/-- Witness for `missing_bid_handling` on `missingBidRound`. -/
theorem missing_bid_handling_witness :
    ((∃ rb ∈ missingBidRound, rb.1 ∉ ([] : List RobotId) ∧
        lookupA rb.2 [("A" : TaskId)] = none) →
      osiCollectBids [] "A" missingBidRound = none) ∧
    (∀ r c, (r, c) ∈ psiEligible missingBidRound [] "A" ↔
      ∃ bs, (r, bs) ∈ missingBidRound ∧ r ∉ ([] : List RobotId) ∧
        lookupA bs [("A" : TaskId)] = some c) ∧
    (∃ c r, min_bid_for_round missingBidRound ["A"] (fun _ => 0) = some (c, r) ∧
      ∀ rb ∈ missingBidRound, ∀ c2, lookupA rb.2 ["A"] = some c2 →
        c ≤ c2 + (fun _ => (0 : Cost)) rb.1) :=
  missing_bid_handling missingBidRound [] "A" (fun _ => 0) ["A"] (by decide)

/-! ### C9: unrecognized mechanism names -/

/-- C9 counterexample: with the unrecognized name "FOO" and an
unallocated item, the dispatch chain instantiates nothing and raises
nothing, and the round loop keeps spinning (it exhausts any fuel without
terminating and without allocating) — there is no fatal configuration
error and the loop body keeps executing round after round. -/
theorem unrecognized_mechanism_counterexample :
    dispatchMechanism "FOO" = none ∧
    hasUnallocated [⟨"A", 1, 0, false⟩] = true ∧
    allocationLoop (fun _ items => items) "FOO" 5 [⟨"A", 1, 0, false⟩] 0 = none := by
  refine ⟨by decide, by decide, ?_⟩
  simp [allocationLoop, dispatchMechanism, hasUnallocated]

/-- C9 (amended): a mechanism name outside the dispatch chain's seven
cases — note `"PPSI"` is outside it too, although the claim lists it as
recognized — is silently ignored: no mechanism runs, no error is
raised, the items are untouched, and the round loop never terminates
while an unallocated item remains, whatever the mechanisms would do. -/
theorem unrecognized_mechanism_ignored
    (run : MechanismKind → List Task → List Task) (name : String)
    (items : List Task) (round : Nat)
    (hname : name ∉ ["OSI", "PSI", "SSI", "RR", "SUM", "MAX", "MAN"])
    (hun : hasUnallocated items = true) :
    dispatchMechanism name = none ∧
    dispatchMechanism "PPSI" = none ∧
    ∀ fuel, allocationLoop run name fuel items round = none := by
  have h1 : name ≠ "OSI" := fun h => hname (by simp [h])
  have h2 : name ≠ "PSI" := fun h => hname (by simp [h])
  have h3 : name ≠ "SSI" := fun h => hname (by simp [h])
  have h4 : name ≠ "RR" := fun h => hname (by simp [h])
  have h5 : name ≠ "SUM" := fun h => hname (by simp [h])
  have h6 : name ≠ "MAX" := fun h => hname (by simp [h])
  have h7 : name ≠ "MAN" := fun h => hname (by simp [h])
  have hdisp : dispatchMechanism name = none := by
    simp [dispatchMechanism, h1, h2, h3, h4, h5, h6, h7]
  refine ⟨hdisp, by decide, ?_⟩
  intro fuel
  induction fuel generalizing round with
  | zero => rfl
  | succ n ih => simp [allocationLoop, hun, hdisp, ih]

/-- Witness for `unrecognized_mechanism_ignored` at the name "FOO". -/
theorem unrecognized_mechanism_ignored_witness :
    dispatchMechanism "FOO" = none ∧
    dispatchMechanism "PPSI" = none ∧
    ∀ fuel, allocationLoop (fun _ items => items) "FOO" fuel
      [⟨"A", 1, 0, false⟩] 0 = none :=
  unrecognized_mechanism_ignored (fun _ items => items) "FOO"
    [⟨"A", 1, 0, false⟩] 0 (by decide) (by decide)

/-! ### C10: bid recording before and after the first round -/

/-- C10: a bid delivered while the current round's ledger entry is the
`defaultdict(int)` integer default (in particular at the initial state,
round 0 with nothing initialized) is not recorded — the handler's write
raises `TypeError`; once a round `r ≥ 1` has been opened (its entry is
a dict), the handler records the cost under `(r, bidderID, taskSubset)`
and preserves the round counter. -/
theorem bid_recording (st : Ledger) (robot : RobotId) (ts : TaskSubset)
    (c : Cost) :
    (∀ robot2 ts2 c2, on_bid_received Ledger.init robot2 ts2 c2 = none) ∧
    (∀ n, lookupA st.bids st.auction_round = some (RoundEntry.intDefault n) →
      on_bid_received st robot ts c = none) ∧
    (∀ m, 1 ≤ st.auction_round →
      lookupA st.bids st.auction_round = some (RoundEntry.table m) →
      ∃ st2, on_bid_received st robot ts c = some st2 ∧
        st2.auction_round = st.auction_round ∧
        getBid st2 st.auction_round robot ts = some c) := by
  refine ⟨fun _ _ _ => rfl, ?_, ?_⟩
  · intro n hlk
    simp [on_bid_received, defaultGet, hlk]
  · intro m _hr hlk
    have hupd : on_bid_received st robot ts c = some { st with bids := updateA st.bids st.auction_round (RoundEntry.table (updateA m robot (updateA ((lookupA m robot).getD []) ts c))) } := by
      simp [on_bid_received, defaultGet, hlk]
    refine ⟨_, hupd, rfl, ?_⟩
    simp [getBid, lookupA_updateA_self]

/-- Witness for `bid_recording`: a bid sent at the initial state is
dropped; after `openRound` the same bid is recorded under round 1. -/
theorem bid_recording_witness :
    on_bid_received Ledger.init "r1" ["A"] 5 = none ∧
    ∃ st2, on_bid_received (openRound Ledger.init) "r1" ["A"] 5 = some st2 ∧
      st2.auction_round = (openRound Ledger.init).auction_round ∧
      getBid st2 (openRound Ledger.init).auction_round "r1" ["A"] = some 5 := by
  have h := bid_recording (openRound Ledger.init) "r1" ["A"] 5
  exact ⟨h.1 "r1" ["A"] 5, h.2.2 [] (by decide) (by decide)⟩

end MRPlan
